import Mathlib

/-!
Shallow embedding of `src/packages/utility.hpp` (namespace `raft`) and proofs
about it.

The header provides three utilities:

* `range(a, b, delta = 1)` — builds a `std::vector` of the common arithmetic
  type, filling it with `a, a+delta, ...` (ascending branch, taken when
  `a < b`) or `a, a-delta, ...` (descending branch, taken otherwise).
  We embed the integer instantiation: bounds and step are `Int` (C++ signed
  overflow is undefined, so the mathematical integers model every defined
  execution).  The loop terminates exactly when `0 < delta`, which the
  embedding takes as an explicit hypothesis argument.

* `sum<R>(ports...)` / `mult<R>(ports...)` — variadic folds that pop one
  value from each port and combine with `+` / `*`.  A port is embedded as a
  record carrying the value its FIFO yields, a pop counter (the spec's
  "call counter on a test source double") and an identifier; the fold
  returns, besides the numeric result, the updated ports and the trace of
  port identifiers in pop order, so that "each source is drained exactly
  once, in argument order" is stateable.
-/

namespace raft

/-- A FIFO-like source ("port").  `value` is the element at the head of the
FIFO (what `pop` yields), `pops` counts how many times `pop` has been
invoked on this port, `id` identifies the port in the pop trace. -/
structure Port where
  id : Nat
  value : Int
  pops : Nat
deriving DecidableEq

/-- The pop operation `port.pop( val )`: yields the head value and bumps the pop counter. -/
def Port.pop (p : Port) : Int × Port :=
  (p.value, ⟨p.id, p.value, p.pops + 1⟩)

/-- Embeds `sum_helper< RETTYPE, PORT, PORTS... >::sum` together with the
`RETTYPE`-only base case.  Embeds the recursive variadic template: the empty pack returns the
cast of `0`; otherwise the first port is popped (before the recursive call,
as in the C++ statement order), the tail is folded, and the results are
combined with `+`.  Besides the numeric result we return the updated ports
and the trace of popped port identifiers, in pop order. -/
def sum_helper : List Port → Int × List Port × List Nat
  | [] => (0, [], [])
  | port :: ports =>
    let pr := port.pop
    let rest := sum_helper ports
    (pr.1 + rest.1, pr.2 :: rest.2.1, port.id :: rest.2.2)

/-- The front end `raft::sum< RETTYPE >( ports... )`: forwards to `sum_helper` and moves
out the numeric result. -/
def sum (ports : List Port) : Int :=
  (sum_helper ports).1

/-- Embeds `mult_helper< RETTYPE, PORT, PORTS... >::mult` together with the
`RETTYPE`-only base case.  Same shape as `sum_helper` with identity `1` and operator `*`. -/
def mult_helper : List Port → Int × List Port × List Nat
  | [] => (1, [], [])
  | port :: ports =>
    let pr := port.pop
    let rest := mult_helper ports
    (pr.1 * rest.1, pr.2 :: rest.2.1, port.id :: rest.2.2)

/-- The front end `raft::mult< RETTYPE >( ports... )`: forwards to `mult_helper` and moves
out the numeric result. -/
def mult (ports : List Port) : Int :=
  (mult_helper ports).1

/-- Values written by the ascending fill loop of `range` (taken when
`a < b`): `for( i = a; islessequal( i, b + delta ); i += delta )` pushes the
successive loop values `i`.  The list is exactly the sequence of values the
C++ loop assigns through `out[ index ] = i`, in iteration order; its length
is the number of loop iterations. -/
def ascLoopValues (b delta : Int) (hd : 0 < delta) (i : Int) : List Int :=
  if h : i ≤ b + delta then i :: ascLoopValues b delta hd (i + delta) else []
termination_by (b + delta + 1 - i).toNat
decreasing_by omega

/-- Values written by the descending fill loop of `range` (taken when
`a >= b`): `for( i = a; isgreaterequal( i, b - delta ); i -= delta )`. -/
def descLoopValues (b delta : Int) (hd : 0 < delta) (i : Int) : List Int :=
  if h : b - delta ≤ i then i :: descLoopValues b delta hd (i - delta) else []
termination_by (i + 1 - (b - delta)).toNat
decreasing_by omega

/-- Sequential vector writes `out[ index ] = v; index++` for a list of
values.  `List.set` leaves the list unchanged on an out-of-range index:
the C++ `std::vector::operator[]` write past the end is undefined behavior
that does not change the vector's readable contents, and the overflowing
write is accounted for separately by the loop-iteration count
(`ascIters` / `descIters`). -/
def writeSeq : List Int → Nat → List Int → List Int
  | out, _, [] => out
  | out, index, v :: vs => writeSeq (out.set index v) (index + 1) vs

/-- The function `raft::range( a, b, delta )` on integers.  Branches on `a < b`; each
branch allocates `out` with capacity `(b - a + delta) / delta` (resp.
`(a - b + delta) / delta`, both with C++ truncated division, `Int.tdiv`)
and runs the fill loop. -/
def range (a b delta : Int) (hd : 0 < delta) : List Int :=
  if a < b then
    writeSeq (List.replicate ((b - a + delta).tdiv delta).toNat 0) 0
      (ascLoopValues b delta hd a)
  else
    writeSeq (List.replicate ((a - b + delta).tdiv delta).toNat 0) 0
      (descLoopValues b delta hd a)

/-- Number of iterations (= vector writes) of the ascending fill loop of
`range a b delta`. -/
def ascIters (a b delta : Int) (hd : 0 < delta) : Nat :=
  (ascLoopValues b delta hd a).length

/-- Capacity the ascending branch of `range a b delta` allocates for `out`. -/
def ascCap (a b delta : Int) : Int :=
  (b - a + delta).tdiv delta

end raft

/-! ### Helper lemmas about the fill loops of `range` -/

/-- Closed form of the ascending fill loop: if `n` is the exact number of
full steps that fit (`i + n*delta ≤ b + delta < i + (n+1)*delta`), the loop
writes `i, i + delta, ..., i + n*delta`. -/
lemma ascLoopValues_closed (b delta : Int) (hd : 0 < delta) :
    ∀ (n : Nat) (i : Int),
      i + (n : Int) * delta ≤ b + delta → b + delta < i + ((n : Int) + 1) * delta →
      raft.ascLoopValues b delta hd i
        = (List.range (n + 1)).map (fun k : Nat => i + (k : Int) * delta) := by
  intro n
  induction n with
  | zero =>
    intro i h1 h2
    rw [raft.ascLoopValues]
    have hc : i ≤ b + delta := by simpa using h1
    have hc2 : ¬ (i + delta ≤ b + delta) := by
      simp only [Nat.cast_zero, zero_add, one_mul] at h2
      omega
    rw [dif_pos hc, raft.ascLoopValues, dif_neg hc2]
    simp [List.range_succ]
  | succ n ih =>
    intro i h1 h2
    have e1 : ((n : Int) + 1) * delta = (n : Int) * delta + delta := by ring
    have hn : (0 : Int) ≤ (n : Int) * delta :=
      mul_nonneg (Int.natCast_nonneg n) hd.le
    have hc : i ≤ b + delta := by
      push_cast at h1
      rw [e1] at h1
      omega
    rw [raft.ascLoopValues, dif_pos hc]
    rw [ih (i + delta) (by push_cast at h1 ⊢; rw [e1] at h1; omega)
      (by push_cast at h2 ⊢; ring_nf at h2 ⊢; omega)]
    conv_rhs => rw [List.range_succ_eq_map]
    rw [List.map_cons, List.map_map]
    refine congrArg₂ _ (by simp) (List.map_congr_left ?_)
    intro k _
    simp only [Function.comp_apply]
    push_cast
    ring

/-- Closed form of the descending fill loop: if `n` is the exact number of
full steps that fit (`b - delta ≤ i - n*delta` and `i - (n+1)*delta` is past
the bound), the loop writes `i, i - delta, ..., i - n*delta`. -/
lemma descLoopValues_closed (b delta : Int) (hd : 0 < delta) :
    ∀ (n : Nat) (i : Int),
      b - delta ≤ i - (n : Int) * delta → i - ((n : Int) + 1) * delta < b - delta →
      raft.descLoopValues b delta hd i
        = (List.range (n + 1)).map (fun k : Nat => i - (k : Int) * delta) := by
  intro n
  induction n with
  | zero =>
    intro i h1 h2
    rw [raft.descLoopValues]
    have hc : b - delta ≤ i := by simpa using h1
    have hc2 : ¬ (b - delta ≤ i - delta) := by
      simp only [Nat.cast_zero, zero_add, one_mul] at h2
      omega
    rw [dif_pos hc, raft.descLoopValues, dif_neg hc2]
    simp [List.range_succ]
  | succ n ih =>
    intro i h1 h2
    have e1 : ((n : Int) + 1) * delta = (n : Int) * delta + delta := by ring
    have hn : (0 : Int) ≤ (n : Int) * delta :=
      mul_nonneg (Int.natCast_nonneg n) hd.le
    have hc : b - delta ≤ i := by
      push_cast at h1
      rw [e1] at h1
      omega
    rw [raft.descLoopValues, dif_pos hc]
    rw [ih (i - delta) (by push_cast at h1 ⊢; rw [e1] at h1; omega)
      (by push_cast at h2 ⊢; ring_nf at h2 ⊢; omega)]
    conv_rhs => rw [List.range_succ_eq_map]
    rw [List.map_cons, List.map_map]
    refine congrArg₂ _ (by simp) (List.map_congr_left ?_)
    intro k _
    simp only [Function.comp_apply]
    push_cast
    ring

/-- The ascending fill loop of `range a b delta` with `a < b` writes exactly
`cap + 1` values `a, a + delta, ..., a + cap*delta`, where
`cap = (b - a + delta) / delta` is the allocated capacity. -/
lemma ascLoopValues_of_lt (a b delta : Int) (hd : 0 < delta) (hab : a < b) :
    raft.ascLoopValues b delta hd a
      = (List.range (((b - a + delta).tdiv delta).toNat + 1)).map
          (fun k : Nat => a + (k : Int) * delta) := by
  have hx : (0 : Int) ≤ b - a + delta := by omega
  have htd : (b - a + delta).tdiv delta = (b - a + delta) / delta :=
    Int.tdiv_eq_ediv hx hd.le
  have hq : (0 : Int) ≤ (b - a + delta) / delta := Int.ediv_nonneg hx hd.le
  have hcast : ((((b - a + delta) / delta).toNat : Int)) = (b - a + delta) / delta :=
    Int.toNat_of_nonneg hq
  rw [htd]
  refine ascLoopValues_closed b delta hd _ a ?_ ?_
  · rw [hcast]
    have := Int.ediv_mul_le (b - a + delta) hd.ne'
    omega
  · rw [hcast]
    have := Int.lt_ediv_add_one_mul_self (b - a + delta) hd
    omega

/-- The descending fill loop of `range a b delta` with `b ≤ a` writes exactly
`cap + 1` values `a, a - delta, ..., a - cap*delta`, where
`cap = (a - b + delta) / delta` is the allocated capacity. -/
lemma descLoopValues_of_ge (a b delta : Int) (hd : 0 < delta) (hab : b ≤ a) :
    raft.descLoopValues b delta hd a
      = (List.range (((a - b + delta).tdiv delta).toNat + 1)).map
          (fun k : Nat => a - (k : Int) * delta) := by
  have hx : (0 : Int) ≤ a - b + delta := by omega
  have htd : (a - b + delta).tdiv delta = (a - b + delta) / delta :=
    Int.tdiv_eq_ediv hx hd.le
  have hq : (0 : Int) ≤ (a - b + delta) / delta := Int.ediv_nonneg hx hd.le
  have hcast : ((((a - b + delta) / delta).toNat : Int)) = (a - b + delta) / delta :=
    Int.toNat_of_nonneg hq
  rw [htd]
  refine descLoopValues_closed b delta hd _ a ?_ ?_
  · rw [hcast]
    have := Int.ediv_mul_le (a - b + delta) hd.ne'
    omega
  · rw [hcast]
    have := Int.lt_ediv_add_one_mul_self (a - b + delta) hd
    omega

/-- Writing into the empty vector never changes it. -/
lemma writeSeq_nil_out (idx : Nat) (vs : List Int) :
    raft.writeSeq [] idx vs = [] := by
  induction vs generalizing idx with
  | nil => rfl
  | cons v vs ih => simp [raft.writeSeq, ih]

/-- A write sequence starting past position `0` leaves the head untouched. -/
lemma writeSeq_cons_succ (x : Int) (out : List Int) (idx : Nat) (vs : List Int) :
    raft.writeSeq (x :: out) (idx + 1) vs = x :: raft.writeSeq out idx vs := by
  induction vs generalizing out idx with
  | nil => rfl
  | cons v vs ih => simp [raft.writeSeq, ih]

/-- Sequential writes from index `0`: the written values replace the vector
contents position by position; writes past the end are dropped, and unwritten
tail positions keep their old contents. -/
lemma writeSeq_zero (vs : List Int) : ∀ (out : List Int),
    raft.writeSeq out 0 vs = vs.take out.length ++ out.drop vs.length := by
  induction vs with
  | nil => intro out; simp [raft.writeSeq]
  | cons v vs ih =>
    intro out
    cases out with
    | nil => simp [raft.writeSeq, writeSeq_nil_out]
    | cons o os =>
      simp only [raft.writeSeq, List.set_cons_zero]
      rw [show (0 : Nat) + 1 = 0 + 1 from rfl, writeSeq_cons_succ]
      simp [ih]

/-- The vector returned by the ascending branch of `range`:
`[a, a + delta, ..., a + (cap - 1)*delta]` with `cap` the allocated
capacity (the final, out-of-bounds write of the loop does not land in the
vector). -/
lemma range_asc_eq (a b delta : Int) (hd : 0 < delta) (hab : a < b) :
    raft.range a b delta hd
      = (List.range ((b - a + delta).tdiv delta).toNat).map
          (fun k : Nat => a + (k : Int) * delta) := by
  rw [raft.range, if_pos hab, ascLoopValues_of_lt a b delta hd hab, writeSeq_zero]
  have hlen : (List.replicate ((b - a + delta).tdiv delta).toNat (0 : Int)).length
      = ((b - a + delta).tdiv delta).toNat := List.length_replicate _ _
  rw [hlen]
  rw [List.drop_eq_nil_of_le (by simp), List.append_nil]
  rw [← List.map_take, List.take_range]
  simp

/-- The vector returned by the descending branch of `range`:
`[a, a - delta, ..., a - (cap - 1)*delta]` with `cap` the allocated
capacity. -/
lemma range_desc_eq (a b delta : Int) (hd : 0 < delta) (hab : b ≤ a) :
    raft.range a b delta hd
      = (List.range ((a - b + delta).tdiv delta).toNat).map
          (fun k : Nat => a - (k : Int) * delta) := by
  rw [raft.range, if_neg (by omega), descLoopValues_of_ge a b delta hd hab, writeSeq_zero]
  have hlen : (List.replicate ((a - b + delta).tdiv delta).toNat (0 : Int)).length
      = ((a - b + delta).tdiv delta).toNat := List.length_replicate _ _
  rw [hlen]
  rw [List.drop_eq_nil_of_le (by simp), List.append_nil]
  rw [← List.map_take, List.take_range]
  simp

/-! ### Claims about `range` -/

/-- C1: confirmed. For all `a < b` and `delta > 0`, `range a b delta` returns a
sequence of length `floor((b - a)/delta) + 1` whose elements are strictly
increasing with constant difference `delta`, whose first element is `a` and
whose last element is `≤ b`. -/
theorem range_ascending_spec (a b delta : Int) (hd : 0 < delta) (hab : a < b) :
    (raft.range a b delta hd).length = ((b - a) / delta).toNat + 1 ∧
    (raft.range a b delta hd).head? = some a ∧
    (raft.range a b delta hd).Chain' (fun x y => y = x + delta) ∧
    (raft.range a b delta hd).Pairwise (· < ·) ∧
    ∀ x ∈ (raft.range a b delta hd).getLast?, x ≤ b := by
  have hx : (0 : Int) ≤ b - a + delta := by omega
  have htd : (b - a + delta).tdiv delta = (b - a + delta) / delta :=
    Int.tdiv_eq_ediv hx hd.le
  have hdiv : (b - a + delta) / delta = (b - a) / delta + 1 := by
    have := Int.add_mul_ediv_right (b - a) 1 hd.ne'
    simpa using this
  have hq0 : (0 : Int) ≤ (b - a) / delta := Int.ediv_nonneg (by omega) hd.le
  have hN : ((b - a + delta).tdiv delta).toNat = ((b - a) / delta).toNat + 1 := by
    omega
  refine ⟨?_, ?_, ?_, ?_, ?_⟩
  · rw [range_asc_eq a b delta hd hab]
    simp [hN]
  · rw [range_asc_eq a b delta hd hab, hN, List.range_succ_eq_map]
    simp
  · rw [range_asc_eq a b delta hd hab, List.chain'_map, hN,
      List.chain'_range_succ]
    intro j hj
    push_cast
    ring
  · rw [range_asc_eq a b delta hd hab, List.pairwise_map]
    refine (List.pairwise_lt_range _).imp ?_
    intro j k hjk
    have hjk2 : (j : Int) < (k : Int) := by exact_mod_cast hjk
    have := mul_lt_mul_of_pos_right hjk2 hd
    linarith
  · rw [range_asc_eq a b delta hd hab, hN, List.range_succ]
    simp only [List.map_append, List.map_cons, List.map_nil,
      List.getLast?_concat, Option.mem_def, Option.some.injEq]
    intro x hx2
    subst hx2
    rw [Int.toNat_of_nonneg hq0]
    have := Int.ediv_mul_le (b - a) hd.ne'
    linarith

/-- Witness for C1 at `a = 1`, `b = 5`, `delta = 1`. -/
theorem range_ascending_spec_witness :
    ((0 : Int) < 1 ∧ (1 : Int) < 5) ∧
    ((raft.range 1 5 1 one_pos).length = (((5 : Int) - 1) / 1).toNat + 1 ∧
     (raft.range 1 5 1 one_pos).head? = some 1 ∧
     (raft.range 1 5 1 one_pos).Chain' (fun x y => y = x + 1) ∧
     (raft.range 1 5 1 one_pos).Pairwise (· < ·) ∧
     ∀ x ∈ (raft.range 1 5 1 one_pos).getLast?, x ≤ 5) :=
  ⟨⟨by decide, by decide⟩, range_ascending_spec 1 5 1 one_pos (by decide)⟩

/-- C2: confirmed. For all `a ≥ b` and `delta > 0`, `range a b delta` takes the
descending branch and returns a strictly decreasing sequence whose first
element is `a` and whose last element is `≥ b` (adjacent elements differ by
`delta`). -/
theorem range_descending_spec (a b delta : Int) (hd : 0 < delta) (hab : b ≤ a) :
    (raft.range a b delta hd).head? = some a ∧
    (raft.range a b delta hd).Chain' (fun x y => y = x - delta) ∧
    (raft.range a b delta hd).Pairwise (· > ·) ∧
    ∀ x ∈ (raft.range a b delta hd).getLast?, b ≤ x := by
  have hx : (0 : Int) ≤ a - b + delta := by omega
  have htd : (a - b + delta).tdiv delta = (a - b + delta) / delta :=
    Int.tdiv_eq_ediv hx hd.le
  have hdiv : (a - b + delta) / delta = (a - b) / delta + 1 := by
    have := Int.add_mul_ediv_right (a - b) 1 hd.ne'
    simpa using this
  have hq0 : (0 : Int) ≤ (a - b) / delta := Int.ediv_nonneg (by omega) hd.le
  have hN : ((a - b + delta).tdiv delta).toNat = ((a - b) / delta).toNat + 1 := by
    omega
  refine ⟨?_, ?_, ?_, ?_⟩
  · rw [range_desc_eq a b delta hd hab, hN, List.range_succ_eq_map]
    simp
  · rw [range_desc_eq a b delta hd hab, List.chain'_map, hN,
      List.chain'_range_succ]
    intro j hj
    push_cast
    ring
  · rw [range_desc_eq a b delta hd hab, List.pairwise_map]
    refine (List.pairwise_lt_range _).imp ?_
    intro j k hjk
    have hjk2 : (j : Int) < (k : Int) := by exact_mod_cast hjk
    have := mul_lt_mul_of_pos_right hjk2 hd
    simp only [gt_iff_lt]
    linarith
  · rw [range_desc_eq a b delta hd hab, hN, List.range_succ]
    simp only [List.map_append, List.map_cons, List.map_nil,
      List.getLast?_concat, Option.mem_def, Option.some.injEq]
    intro x hx2
    subst hx2
    rw [Int.toNat_of_nonneg hq0]
    have := Int.ediv_mul_le (a - b) hd.ne'
    linarith

/-- Witness for C2 at `a = 5`, `b = 1`, `delta = 1`. -/
theorem range_descending_spec_witness :
    ((0 : Int) < 1 ∧ (1 : Int) ≤ 5) ∧
    ((raft.range 5 1 1 one_pos).head? = some 5 ∧
     (raft.range 5 1 1 one_pos).Chain' (fun x y => y = x - 1) ∧
     (raft.range 5 1 1 one_pos).Pairwise (· > ·) ∧
     ∀ x ∈ (raft.range 5 1 1 one_pos).getLast?, 1 ≤ x) :=
  ⟨⟨by decide, by decide⟩, range_descending_spec 5 1 1 one_pos (by decide)⟩

/-- C3 fails on the code: at `range 1 5 1` the ascending fill loop
performs `6` iterations (writes `out[0] ... out[5]`) while the vector is
allocated with capacity `(5 - 1 + 1) / 1 = 5`, so the final write
`out[5] = 6` is out of the vector's bounds. -/
theorem range_loop_overruns_capacity :
    (raft.ascCap 1 5 1).toNat < raft.ascIters 1 5 1 one_pos ∧
    raft.ascCap 1 5 1 = 5 ∧ raft.ascIters 1 5 1 one_pos = 6 := by
  have hiters : raft.ascIters 1 5 1 one_pos = 6 := by
    rw [raft.ascIters, ascLoopValues_of_lt 1 5 1 one_pos (by decide)]
    simp only [List.length_map, List.length_range]
    decide
  refine ⟨?_, by decide, hiters⟩
  rw [hiters]
  decide

/-- C4: confirmed. `range(1, 5)` with the default step `1` is `[1,2,3,4,5]` and
`range(5, 1)` with the default step is `[5,4,3,2,1]`. -/
theorem range_default_step_examples :
    raft.range 1 5 1 one_pos = [1, 2, 3, 4, 5] ∧
    raft.range 5 1 1 one_pos = [5, 4, 3, 2, 1] := by
  constructor
  · rw [range_asc_eq 1 5 1 one_pos (by decide)]
    decide
  · rw [range_desc_eq 5 1 1 one_pos (by decide)]
    decide

/-- C5: confirmed. `range(0, 10, 2)` is `[0,2,4,6,8,10]`. -/
theorem range_step_two_example :
    raft.range 0 10 2 two_pos = [0, 2, 4, 6, 8, 10] := by
  rw [range_asc_eq 0 10 2 two_pos (by decide)]
  decide

/-! ### Helper lemmas about the folds -/

/-- The numeric result of `sum_helper` is the sum of the values of the ports,
in order. -/
lemma sum_helper_fst (ports : List raft.Port) :
    (raft.sum_helper ports).1 = (ports.map raft.Port.value).sum := by
  induction ports with
  | nil => simp [raft.sum_helper]
  | cons p ps ih => simp [raft.sum_helper, raft.Port.pop, ih]

/-- The numeric result of `mult_helper` is the product of the values of the
ports, in order. -/
lemma mult_helper_fst (ports : List raft.Port) :
    (raft.mult_helper ports).1 = (ports.map raft.Port.value).prod := by
  induction ports with
  | nil => simp [raft.mult_helper]
  | cons p ps ih => simp [raft.mult_helper, raft.Port.pop, ih]

/-! ### Claims about the folds -/

/-- C6: confirmed. `sum()` over zero sources returns `0` and `mult()` over zero
sources returns `1`; neither call pops anything: the pop trace is empty and
no port state is produced or touched. -/
theorem sum_mult_empty_identity :
    raft.sum [] = 0 ∧ raft.mult [] = 1 ∧
    (raft.sum_helper []).2.1 = [] ∧ (raft.sum_helper []).2.2 = [] ∧
    (raft.mult_helper []).2.1 = [] ∧ (raft.mult_helper []).2.2 = [] := by
  refine ⟨rfl, rfl, rfl, rfl, rfl, rfl⟩

/-- C7: confirmed. For every list of sources, `sum` and `mult` pop each source
exactly once (every pop counter is bumped by exactly one) and the pops
happen in left-to-right argument order (the pop trace is the ports'
identifiers in argument order). -/
theorem sum_mult_pop_each_once_in_order (ports : List raft.Port) :
    (raft.sum_helper ports).2.1
        = ports.map (fun p => ⟨p.id, p.value, p.pops + 1⟩) ∧
    (raft.sum_helper ports).2.2 = ports.map raft.Port.id ∧
    (raft.mult_helper ports).2.1
        = ports.map (fun p => ⟨p.id, p.value, p.pops + 1⟩) ∧
    (raft.mult_helper ports).2.2 = ports.map raft.Port.id := by
  induction ports with
  | nil => exact ⟨rfl, rfl, rfl, rfl⟩
  | cons p ps ih =>
    refine ⟨?_, ?_, ?_, ?_⟩ <;>
      simp [raft.sum_helper, raft.mult_helper, raft.Port.pop,
        ih.1, ih.2.1, ih.2.2.1, ih.2.2.2]

/-- C8: confirmed. On a nonempty list of sources the fold is right-associative:
the result is the value popped from the first source combined (`+` for
`sum`, `*` for `mult`) with the fold of the remaining sources. -/
theorem sum_mult_right_assoc (p : raft.Port) (ps : List raft.Port) :
    raft.sum (p :: ps) = (raft.Port.pop p).1 + raft.sum ps ∧
    raft.mult (p :: ps) = (raft.Port.pop p).1 * raft.mult ps := by
  exact ⟨rfl, rfl⟩

/-- C9: confirmed. With one source yielding `3` and another yielding `4`, `sum`
returns `7` and `mult` returns `12`. -/
theorem sum_mult_three_four :
    raft.sum [⟨0, 3, 0⟩, ⟨1, 4, 0⟩] = 7 ∧
    raft.mult [⟨0, 3, 0⟩, ⟨1, 4, 0⟩] = 12 := by
  refine ⟨rfl, rfl⟩

/-- C10: confirmed. With exact integer arithmetic, `sum` and `mult` return the same
numeric result on any permutation of the source arguments. -/
theorem sum_mult_perm_invariant (l1 l2 : List raft.Port) (h : l1.Perm l2) :
    raft.sum l1 = raft.sum l2 ∧ raft.mult l1 = raft.mult l2 := by
  constructor
  · simp only [raft.sum, sum_helper_fst]
    exact (h.map raft.Port.value).sum_eq
  · simp only [raft.mult, mult_helper_fst]
    exact (h.map raft.Port.value).prod_eq

/-- Witness for C10 at a concrete permutation: swapping the two sources
yielding `3` and `4`. -/
theorem sum_mult_perm_invariant_witness :
    ([⟨0, 3, 0⟩, ⟨1, 4, 0⟩] : List raft.Port).Perm [⟨1, 4, 0⟩, ⟨0, 3, 0⟩] ∧
    (raft.sum [⟨0, 3, 0⟩, ⟨1, 4, 0⟩] = raft.sum [⟨1, 4, 0⟩, ⟨0, 3, 0⟩] ∧
     raft.mult [⟨0, 3, 0⟩, ⟨1, 4, 0⟩] = raft.mult [⟨1, 4, 0⟩, ⟨0, 3, 0⟩]) :=
  ⟨List.Perm.swap (⟨1, 4, 0⟩ : raft.Port) ⟨0, 3, 0⟩ [],
   sum_mult_perm_invariant _ _
     (List.Perm.swap (⟨1, 4, 0⟩ : raft.Port) ⟨0, 3, 0⟩ [])⟩
